import Mathlib

/-!
Formal model of the path-resolution and relevance-ranking core of
`mcp-docs-server` (files `src/utils.ts` and `src/tools/docs.ts`), as a shallow
embedding in Lean.  JavaScript strings are modelled by `String` (operating on
the character list, so that everything evaluates), the insertion-ordered
`Map`/`Set` structures by association lists and duplicate-free lists, `async`
filesystem access by explicit finite environments, and thrown exceptions by
`Except String` carrying the error message.  JavaScript's stable
`Array.prototype.sort` is modelled by a stable insertion sort.  All definitions
follow the TypeScript source; definitions whose name starts with `spec` are
instead transcribed from the natural-language specification, for comparison
with the code-derived definitions.
-/

/-! ## JavaScript string primitives, at the character-list level -/

/-- Helper for `stringIncludes`: does `needle` occur in the given list? -/
def includesAux (needle : List Char) : List Char → Bool
  | [] => needle.isEmpty
  | c :: rest => needle.isPrefixOf (c :: rest) || includesAux needle rest

/-- JavaScript `hay.includes(needle)`: `needle` occurs contiguously in `hay`
(the empty needle always occurs). -/
def stringIncludes (hay needle : String) : Bool :=
  includesAux needle.data hay.data

/-- JavaScript `s.startsWith(p)`. -/
def startsWithStr (s p : String) : Bool :=
  p.data.isPrefixOf s.data

/-- JavaScript `s.endsWith(p)`. -/
def endsWithStr (s p : String) : Bool :=
  p.data.isSuffixOf s.data

/-- JavaScript `s.toLowerCase()` (ASCII letters; the source only compares
ASCII keywords and paths). -/
def toLowerCase (s : String) : String :=
  String.mk (s.data.map Char.toLower)

/-- JavaScript `s.slice(n)` for `n ≥ 0` (drop the first `n` characters). -/
def sliceFrom (s : String) (n : Nat) : String :=
  String.mk (s.data.drop n)

/-- JavaScript `s.slice(0, -n)` (drop the last `n` characters). -/
def dropRightStr (s : String) (n : Nat) : String :=
  String.mk (s.data.take (s.data.length - n))

/-- JavaScript `s.length` (code units; all modelled text is in the basic
plane, where this is the character count). -/
def strLength (s : String) : Nat :=
  s.data.length

/-- Helper for `splitOnChar`: accumulate the current segment (reversed). -/
def splitOnCharAux (sep : Char) (acc : List Char) : List Char → List (List Char)
  | [] => [acc.reverse]
  | c :: rest =>
    if c = sep then acc.reverse :: splitOnCharAux sep [] rest
    else splitOnCharAux sep (c :: acc) rest

/-- JavaScript `s.split(sep)` for a one-character separator (the source only
splits on `"/"` and `"\n"`). -/
def splitOnChar (s : String) (sep : Char) : List String :=
  (splitOnCharAux sep [] s.data).map String.mk

/-- Helper for `splitWhitespaceTokens`: split at every character satisfying
`p`. -/
def splitOnPredAux (p : Char → Bool) (acc : List Char) : List Char → List (List Char)
  | [] => [acc.reverse]
  | c :: rest =>
    if p c then acc.reverse :: splitOnPredAux p [] rest
    else splitOnPredAux p (c :: acc) rest

/-- JavaScript `s.split(/\s+/).filter(Boolean)`: the non-empty maximal runs
of non-whitespace characters (splitting at every whitespace character and
dropping empty tokens coincides with splitting on whitespace runs). -/
def splitWhitespaceTokens (s : String) : List String :=
  ((splitOnPredAux Char.isWhitespace [] s.data).map String.mk).filter (fun t => t ≠ "")

/-- JavaScript `list.join(sep)` for a one-character separator surrogate:
interleave `sep` between the strings. -/
def joinSep (sep : String) (l : List String) : String :=
  String.mk (List.intercalate sep.data (l.map String.data))

/-- Code-point comparison on character lists, the order used by JavaScript's
default `sort()` comparator on basic-plane strings. -/
def charListLe : List Char → List Char → Bool
  | [], _ => true
  | _ :: _, [] => false
  | a :: as, b :: bs => if a = b then charListLe as bs else decide (a < b)

/-- Code-point comparison on strings. -/
def stringLeB (a b : String) : Bool :=
  charListLe a.data b.data

/-- Stable insertion of `a` into `l`: `a` goes before the first element it may
weakly precede. -/
def sortInsert (le : α → α → Bool) (a : α) : List α → List α
  | [] => [a]
  | b :: l => if le a b then a :: b :: l else b :: sortInsert le a l

/-- Stable sort by the Boolean comparator `le` (`le a b` meaning "`a` may come
weakly before `b`"): the model of JavaScript's stable `Array.prototype.sort`. -/
def stableSort (le : α → α → Bool) : List α → List α
  | [] => []
  | a :: l => sortInsert le a (stableSort le l)

/-- Insertion-ordered set update (JavaScript `Set.prototype.add`). -/
def addUnique (l : List String) (s : String) : List String :=
  if s ∈ l then l else l ++ [s]

/-- JavaScript `Array.from(new Set(list))`: deduplicate keeping first
occurrences in order. -/
def dedupe (l : List String) : List String :=
  l.foldl addUnique []

/-! ## Path normalization (`normalizeDocPath`, src/utils.ts) and the traversal
check (`hasTraversal`, src/tools/docs.ts) -/

/-- One step of `replace(/\\/g, "/")`: backslashes become forward slashes. -/
def slashifyChar (c : Char) : Char :=
  if c = '\\' then '/' else c

/-- The `while (normalized.startsWith("./")) normalized = normalized.slice(2)`
loop of `normalizeDocPath`. -/
def stripLeadingDotSlash : List Char → List Char
  | [] => []
  | [c] => [c]
  | a :: b :: rest =>
    if a = '.' && b = '/' then stripLeadingDotSlash rest
    else a :: b :: rest

/-- `replace(/\/+/gu, "/")`: every maximal run of forward slashes collapses to
a single slash. -/
def collapseSlashes : List Char → List Char
  | [] => []
  | [c] => [c]
  | a :: b :: rest =>
    if a = '/' && b = '/' then collapseSlashes (b :: rest)
    else a :: collapseSlashes (b :: rest)

/-- `normalizeDocPath` on the character list of the input: convert backslashes
to slashes, strip leading `./` repeatedly, strip leading slashes, collapse
repeated slashes, strip one trailing slash. -/
def normalizeDocPathL (l : List Char) : List Char :=
  let l1 := l.map slashifyChar
  let l2 := stripLeadingDotSlash l1
  let l3 := l2.dropWhile (· = '/')
  let l4 := collapseSlashes l3
  if l4.getLast? = some '/' then l4.dropLast else l4

/-- `normalizeDocPath(docPath)` from src/utils.ts. -/
def normalizeDocPath (docPath : String) : String :=
  String.mk (normalizeDocPathL docPath.data)

/-- `hasTraversal(input)` from src/tools/docs.ts: some `/`-delimited segment
equals `".."`. -/
def hasTraversal (input : String) : Bool :=
  (splitOnChar input '/').any (fun segment => segment = "..")

/-! ## Keyword extraction and normalization (src/utils.ts) -/

/-- `replace(/\.(mdx|md)$/i, "")`: strip one trailing `.md` / `.mdx`
extension, case-insensitively. -/
def stripMdExtension (filename : String) : String :=
  let lower := toLowerCase filename
  if endsWithStr lower ".mdx" then dropRightStr filename 4
  else if endsWithStr lower ".md" then dropRightStr filename 3
  else filename

/-- `filename.split(/[-_]|(?=[A-Z])/)`: split on hyphen/underscore (consumed)
and before an uppercase ASCII letter (zero-width; skipped when it would
produce an empty match at the current segment start, per the JavaScript
`split` algorithm). -/
def splitCamel (acc : List Char) : List Char → List (List Char)
  | [] => [acc.reverse]
  | c :: rest =>
    if c = '-' || c = '_' then acc.reverse :: splitCamel [] rest
    else if c.isUpper && !acc.isEmpty then acc.reverse :: splitCamel [c] rest
    else splitCamel (c :: acc) rest

/-- `extractKeywordsFromPath(filePath)` from src/utils.ts: tokens of the final
path segment without its markdown extension, split on `-`/`_`/camelCase,
keeping tokens longer than 2 characters, lowercased, deduplicated. -/
def extractKeywordsFromPath (filePath : String) : List String :=
  let filename := stripMdExtension (((splitOnChar filePath '/').getLast?).getD "")
  let splitParts := (splitCamel [] filename.data).map String.mk
  splitParts.foldl
    (fun keywords keyword =>
      if strLength keyword > 2 then addUnique keywords (toLowerCase keyword)
      else keywords)
    []

/-- `normalizeKeywords(keywords)` from src/utils.ts: split each keyword on
whitespace, drop empties, lowercase, deduplicate. -/
def normalizeKeywords (keywords : List String) : List String :=
  dedupe ((keywords.flatMap fun k => splitWhitespaceTokens k).map toLowerCase)

/-! ## Scoring (src/utils.ts) -/

/-- The per-candidate-file accumulator `FileScore` of src/utils.ts.
`keywordMatches` is a JavaScript `Set`, modelled as a duplicate-free list in
insertion order. -/
structure FileScore where
  path : String
  keywordMatches : List String
  totalMatches : Nat
  titleMatches : Nat
  pathRelevance : Nat
deriving DecidableEq

/-- `calculatePathRelevance(filePath, keywords)` from src/utils.ts. -/
def calculatePathRelevance (filePath : String) (keywords : List String) : Nat :=
  let pathLower := toLowerCase filePath
  let relevance := 0
  let relevance := if startsWithStr pathLower "reference/" then relevance + 2 else relevance
  let relevance :=
    keywords.foldl
      (fun r keyword => if stringIncludes pathLower (toLowerCase keyword) then r + 3 else r)
      relevance
  let highValue := ["guides", "getting-started", "architecture"]
  if highValue.any (fun segment => stringIncludes pathLower segment) then relevance + 1
  else relevance

/-- `calculateFinalScore(score, totalKeywords)` from src/utils.ts. -/
def calculateFinalScore (score : FileScore) (totalKeywords : Nat) : Nat :=
  let allKeywordsBonus := if score.keywordMatches.length = totalKeywords then 10 else 0
  score.totalMatches * 1 + score.titleMatches * 3 + score.pathRelevance * 2 +
    score.keywordMatches.length * 5 + allKeywordsBonus

/-! ## The markdown walk and content scan (src/utils.ts) -/

mutual
/-- A directory entry seen by `walkMdFiles`: a file, whose `content` is the
outcome of `fs.readFile` on it (`Except.error` when the read would throw), or
a directory holding a forest of entries.  Entries and forests are mutually
inductive (rather than `dir` holding a `List FsEntry`) so that the recursive
walk is structural. -/
inductive FsEntry where
  | file (name : String) (content : Except String String)
  | dir (name : String) (children : FsForest)
/-- A finite ordered forest of directory entries. -/
inductive FsForest where
  | nil
  | cons (entry : FsEntry) (rest : FsForest)
end

/-- Build a forest from a list of entries, in order. -/
def forestOf : List FsEntry → FsForest
  | [] => FsForest.nil
  | e :: rest => FsForest.cons e (forestOf rest)

/-- `path.join(dir, name)` for an already-clean directory path. -/
def pathJoin (dir name : String) : String :=
  dir ++ "/" ++ name

/-- `walkMdFiles(dir)` from src/utils.ts: recursively yield every `.md` file
under `dir` in directory-entry order (each file paired with its
`fs.readFile` outcome, which the scan consumes right away). -/
def walkMdFiles (dir : String) : FsForest → List (String × Except String String)
  | FsForest.nil => []
  | FsForest.cons (FsEntry.dir name children) rest =>
    walkMdFiles (pathJoin dir name) children ++ walkMdFiles dir rest
  | FsForest.cons (FsEntry.file name content) rest =>
    if endsWithStr name ".md" then (pathJoin dir name, content) :: walkMdFiles dir rest
    else walkMdFiles dir rest

/-- `path.relative(baseDir, filePath).replace(/\\/g, "/")` for the paths the
walk produces (always of the form `baseDir ++ "/" ++ rel`). -/
def pathRelative (baseDir filePath : String) : String :=
  let rel :=
    if startsWithStr filePath (baseDir ++ "/") then sliceFrom filePath (strLength baseDir + 1)
    else filePath
  String.mk (rel.data.map slashifyChar)

/-- The body of the keyword loop in `searchDocumentContent`: if the lowercased
line contains the keyword, create the file's score entry on first contact and
then bump `keywordMatches` / `totalMatches` / `titleMatches`. -/
def scoreStep (keywords : List String) (baseDir filePath lowerLine : String)
    (m : List (String × FileScore)) (keyword : String) : List (String × FileScore) :=
  if !stringIncludes lowerLine (toLowerCase keyword) then m
  else
    let relativePath := pathRelative baseDir filePath
    let m :=
      if (m.lookup relativePath).isNone then
        m ++ [(relativePath,
          { path := relativePath
            keywordMatches := []
            totalMatches := 0
            titleMatches := 0
            pathRelevance := calculatePathRelevance relativePath keywords })]
      else m
    m.map fun entry =>
      if entry.1 = relativePath then
        (entry.1,
          let score := entry.2
          let score :=
            { score with
              keywordMatches := addUnique score.keywordMatches keyword
              totalMatches := score.totalMatches + 1 }
          if stringIncludes lowerLine "#" || stringIncludes lowerLine "title" then
            { score with titleMatches := score.titleMatches + 1 }
          else score)
      else entry

/-- The `fileScores` map of `searchDocumentContent` after scanning every
walked file line by line: an association list in insertion order, like the
JavaScript `Map`. -/
def fileScoresFor (keywords : List String) (baseDir : String)
    (tree : FsForest) : List (String × FileScore) :=
  (walkMdFiles baseDir tree).foldl
    (fun m pc =>
      match pc.2 with
      | Except.error _ => m
      | Except.ok content =>
        (splitOnChar content '\n').foldl
          (fun m lineText =>
            let lowerLine := toLowerCase lineText
            keywords.foldl (scoreStep keywords baseDir pc.1 lowerLine) m)
          m)
    []

/-- `searchDocumentContent(keywords, baseDir)` from src/utils.ts: scan every
`.md` file under `baseDir`, sort the scored files by descending final score
(stable), and return the first 10 relative paths. -/
def searchDocumentContent (keywords : List String) (baseDir : String)
    (tree : FsForest) : List String :=
  if keywords.isEmpty then []
  else
    let validFiles :=
      (stableSort
        (fun a b =>
          decide (calculateFinalScore b keywords.length ≤ calculateFinalScore a keywords.length))
        ((fileScoresFor keywords baseDir tree).map Prod.snd)).take 10
    validFiles.map FileScore.path

/-! ## Suggestions (`getMatchingPaths`, src/utils.ts) -/

/-- The deduplicated union, over every base directory, of the paths
`searchDocumentContent` suggests (the `suggestedPaths` set of
`getMatchingPaths`).  `trees` maps each base-directory path to its directory
tree. -/
def suggestedPathsFor (pathInput : String) (queryKeywords : List String)
    (baseDirs : List String) (trees : String → FsForest) : List String :=
  let pathKeywords := extractKeywordsFromPath pathInput
  let allKeywords := normalizeKeywords (pathKeywords ++ queryKeywords)
  if allKeywords.isEmpty then []
  else
    baseDirs.foldl
      (fun acc base => (searchDocumentContent allKeywords base (trees base)).foldl addUnique acc)
      []

/-- `getMatchingPaths(pathInput, queryKeywords, baseDirs)` from src/utils.ts:
derive keywords from the path and the query; empty keywords or no matches
yield the empty string, otherwise the suggestions are sorted
(default-comparator, i.e. code-point order), bulleted, and prefixed by the
fixed header sentence. -/
def getMatchingPaths (pathInput : String) (queryKeywords : List String)
    (baseDirs : List String) (trees : String → FsForest) : String :=
  let pathKeywords := extractKeywordsFromPath pathInput
  let allKeywords := normalizeKeywords (pathKeywords ++ queryKeywords)
  if allKeywords.isEmpty then ""
  else
    let suggestedPaths := suggestedPathsFor pathInput queryKeywords baseDirs trees
    if suggestedPaths.isEmpty then ""
    else
      let pathList :=
        joinSep "\n" ((stableSort stringLeB suggestedPaths).map (fun value => "- " ++ value))
      "Here are some paths that might be relevant based on your query:\n\n" ++ pathList

/-! ## The document root, the filesystem seen by the docs tool, and results
(src/tools/docs.ts) -/

/-- `DocRoot` from src/utils/config.ts: the configured document root. -/
structure DocRoot where
  relativePath : String
  absolutePath : String

/-- The slice of `DocsServerConfig` the resolver and handler read. -/
structure DocsServerConfig where
  docRoot : DocRoot

/-- What `fs.stat` reports: a directory, or anything else (handled as a file
by `readMdContent`). -/
inductive FileKind where
  | directory
  | file
deriving DecidableEq

/-- A `fs.readdir(..., { withFileTypes: true })` entry. -/
structure Dirent where
  name : String
  isDir : Bool
  isFile : Bool
deriving DecidableEq

/-- The filesystem environment of the docs tool: outcomes of `fs.stat`,
`fs.readFile` and `fs.readdir` keyed by absolute path (`Except.error` models a
thrown error, carrying its message), the directory trees walked by the
suggester keyed by base-directory path, and the locale-aware comparator
behind `String.prototype.localeCompare` (`localeLe a b` meaning
`a.localeCompare(b) <= 0`). -/
structure DocsFs where
  stats : String → Except String FileKind
  reads : String → Except String String
  readdirs : String → Except String (List Dirent)
  trees : String → FsForest
  localeLe : String → String → Bool

/-- `ResolvedDocPath` from src/tools/docs.ts. -/
structure ResolvedDocPath where
  absolutePath : String
  relativePath : String
deriving DecidableEq

/-- The result record of `resolveDocPath`. -/
structure ResolveResult where
  isSecurityViolation : Bool
  resolved : Option ResolvedDocPath
  rootPfx : String

/-- `DocResult` from src/tools/docs.ts: the tagged union of per-path
outcomes.  `suggestions = none` models an absent (`undefined`) field. -/
inductive DocResult where
  | file (path content : String)
  | directory (path : String) (subdirectories files : List String)
      (suggestions : Option String)
  | error (path : String) (message : String) (suggestions : Option String)
deriving DecidableEq

/-- The `path` field shared by every `DocResult` variant. -/
def DocResult.path : DocResult → String
  | DocResult.file p _ => p
  | DocResult.directory p _ _ _ => p
  | DocResult.error p _ _ => p

/-- `ReadMdResult` from src/tools/docs.ts, without the redundant
`isSecurityViolation: false` on the found variant. -/
inductive ReadMdResult where
  | found (result : DocResult)
  | notFound (isSecurityViolation : Bool)

/-! ## Path resolution (src/tools/docs.ts) -/

/-- POSIX `path.resolve(base, rel)` for an absolute `base`: join, then
resolve `.`, `..` and empty segments left to right. -/
def pathResolve (base rel : String) : String :=
  let joined := if startsWithStr rel "/" then rel else base ++ "/" ++ rel
  let stack :=
    (splitOnChar joined '/').foldl
      (fun stack seg =>
        if seg = "" || seg = "." then stack
        else if seg = ".." then stack.dropLast
        else stack ++ [seg])
      []
  "/" ++ joinSep "/" stack

/-- The candidate set of `resolveDocPath`, in JavaScript `Set` insertion
order: the normalized path; the normalized path without a redundant
root-relative-path prefix; `"."` when the input denotes the root itself. -/
def candidatesFor (normalized rootPfx : String) : List String :=
  let candidates := [normalized]
  let candidates :=
    if rootPfx ≠ "" && startsWithStr normalized (rootPfx ++ "/") then
      addUnique candidates (sliceFrom normalized (strLength rootPfx + 1))
    else candidates
  let candidates :=
    if rootPfx ≠ "" && normalized = rootPfx then addUnique candidates "."
    else candidates
  if strLength normalized = 0 then addUnique candidates "." else candidates

/-- The candidate loop of `resolveDocPath`: take the first candidate that
stays under the root and whose `fs.stat` succeeds. -/
def tryCandidates (root : DocRoot) (fs : DocsFs) : List String → Option ResolvedDocPath
  | [] => none
  | candidate :: rest =>
    let relativePath := if candidate = "." then "." else normalizeDocPath candidate
    let target :=
      if relativePath = "." then root.absolutePath
      else pathResolve root.absolutePath relativePath
    if startsWithStr target root.absolutePath then
      match fs.stats target with
      | Except.ok _ => some ⟨target, relativePath⟩
      | Except.error _ => tryCandidates root fs rest
    else tryCandidates root fs rest

/-- `resolveDocPath(docPath, config)` from src/tools/docs.ts. -/
def resolveDocPath (docPath : String) (root : DocRoot) (fs : DocsFs) : ResolveResult :=
  let normalized := normalizeDocPath docPath
  if hasTraversal normalized then
    { isSecurityViolation := true, resolved := none, rootPfx := "" }
  else
    let rootPfx := if root.relativePath = "." then "" else root.relativePath
    { isSecurityViolation := false
      resolved := tryCandidates root fs (candidatesFor normalized rootPfx)
      rootPfx := rootPfx }

/-! ## Directory listing (src/tools/docs.ts) -/

/-- `buildDisplayPath(relativePath, entry, rootPfx, isDirectory)` from
src/tools/docs.ts. -/
def buildDisplayPath (relativePath entry rootPfx : String) (isDirectory : Bool) : String :=
  let cleaned := if relativePath = "." then "" else normalizeDocPath relativePath
  let segments :=
    (if strLength rootPfx > 0 then [rootPfx] else []) ++
      (if strLength cleaned > 0 then [cleaned] else []) ++ [entry]
  let composed := joinSep "/" (segments.filter (fun s => s ≠ ""))
  if isDirectory then composed ++ "/" else composed

/-- `listDirContents(rootPfx, resolved, config)` from src/tools/docs.ts:
display paths of the immediate subdirectories, and of the files whose name
ends in `.md` (case-sensitively), each list sorted by the locale
comparator. -/
def listDirContents (rootPfx : String) (resolved : ResolvedDocPath)
    (fs : DocsFs) : Except String (List String × List String) :=
  match fs.readdirs resolved.absolutePath with
  | Except.error e => Except.error e
  | Except.ok entries =>
    let dirEntries :=
      (entries.filter (fun entry => entry.isDir)).map
        (fun entry => buildDisplayPath resolved.relativePath entry.name rootPfx true)
    let fileEntries :=
      (entries.filter
        (fun entry => !entry.isDir && entry.isFile && endsWithStr entry.name ".md")).map
        (fun entry => buildDisplayPath resolved.relativePath entry.name rootPfx false)
    Except.ok (stableSort fs.localeLe dirEntries, stableSort fs.localeLe fileEntries)

/-! ## The per-path handler (src/tools/docs.ts) -/

/-- `readMdContent(docPath, queryKeywords, config)` from src/tools/docs.ts.
A thrown filesystem error propagates as `Except.error` (caught by the
caller's per-path `try`). -/
def readMdContent (docPath : String) (queryKeywords : List String)
    (config : DocsServerConfig) (fs : DocsFs) : Except String ReadMdResult :=
  let r := resolveDocPath docPath config.docRoot fs
  if r.isSecurityViolation then Except.ok (ReadMdResult.notFound true)
  else
    match r.resolved with
    | none => Except.ok (ReadMdResult.notFound false)
    | some resolved =>
      match fs.stats resolved.absolutePath with
      | Except.error e => Except.error e
      | Except.ok FileKind.directory =>
        match listDirContents r.rootPfx resolved fs with
        | Except.error e => Except.error e
        | Except.ok (dirs, files) =>
          let suggestions :=
            getMatchingPaths docPath queryKeywords [config.docRoot.absolutePath] fs.trees
          Except.ok (ReadMdResult.found
            (DocResult.directory docPath dirs files
              (if suggestions = "" then none else some suggestions)))
      | Except.ok FileKind.file =>
        match fs.reads resolved.absolutePath with
        | Except.error e => Except.error e
        | Except.ok content => Except.ok (ReadMdResult.found (DocResult.file docPath content))

/-- The per-path closure of the docs-tool callback (src/tools/docs.ts,
the body of `args.paths.map`): found results pass through, security
violations become the bare `"Invalid path"` error, misses become a
`not found` error with suggestions, and any thrown error is caught and
becomes that path's error entry with the thrown message. -/
def handleDocPath (config : DocsServerConfig) (fs : DocsFs)
    (queryKeywords : List String) (docPath : String) : DocResult :=
  match readMdContent docPath queryKeywords config fs with
  | Except.ok (ReadMdResult.found result) => result
  | Except.ok (ReadMdResult.notFound true) =>
    DocResult.error docPath "Invalid path" none
  | Except.ok (ReadMdResult.notFound false) =>
    let suggestions := getMatchingPaths docPath queryKeywords [config.docRoot.absolutePath] fs.trees
    DocResult.error docPath ("Path \x22" ++ docPath ++ "\x22 not found.")
      (if suggestions = "" then none else some suggestions)
  | Except.error e => DocResult.error docPath e none

/-- The whole batch: `Promise.all(args.paths.map(...))`, which keeps request
order. -/
def handleDocsRequest (config : DocsServerConfig) (fs : DocsFs)
    (paths : List String) (queryKeywords : List String) : List DocResult :=
  paths.map (handleDocPath config fs queryKeywords)

/-- The error-body assembly of the docs-tool callback (src/tools/docs.ts,
lines building `errorBodyLines`): the error message, then — only when the
error is not the security-violation `"Invalid path"` — the available-paths
block and the suggestions, each when non-empty. -/
def renderErrorBody (availablePaths message : String) (suggestions : Option String) : String :=
  let errorBodyLines := [message]
  let errorBodyLines :=
    if message ≠ "Invalid path" then
      let withAvailable :=
        if availablePaths ≠ "" then errorBodyLines ++ ["", availablePaths]
        else errorBodyLines
      match suggestions with
      | some s => if s ≠ "" then withAvailable ++ ["", s] else withAvailable
      | none => withAvailable
    else errorBodyLines
  joinSep "\n" errorBodyLines

/-! ## Definitions transcribed from the specification (for the refinement
claims) -/

/-- Transcribed from the specification's ranking formula: final score
`totalMatches*1 + titleMatches*3 + pathRelevance*2 + keywordMatches.size*5 +
(10 if keywordMatches.size == totalKeywords else 0)`. -/
def specFinalScore (totalMatches titleMatches pathRelevanceVal keywordMatchCount totalKeywords : Nat) : Nat :=
  totalMatches * 1 + titleMatches * 3 + pathRelevanceVal * 2 + keywordMatchCount * 5 +
    (if keywordMatchCount = totalKeywords then 10 else 0)

/-- Transcribed literally from the specification's path-relevance clause:
+2 if the path starts with `"reference/"`, +3 for every keyword that is a
substring of the lowercased path, +1 if the path contains any of `"guides"`,
`"getting-started"`, `"architecture"`.  Only the keyword clause speaks of the
lowercased path; the other two clauses apply to the path as-is. -/
def specPathRelevance (filePath : String) (keywords : List String) : Nat :=
  (if startsWithStr filePath "reference/" then 2 else 0) +
    3 * (keywords.countP fun k => stringIncludes (toLowerCase filePath) (toLowerCase k)) +
    (if ["guides", "getting-started", "architecture"].any
        (fun segment => stringIncludes filePath segment) then 1
      else 0)

/-- The amended path-relevance formula: the same three clauses, but every
clause reads the lowercased path, which is what the code computes (it
lowercases the path once and uses it throughout). -/
def specPathRelevanceLower (filePath : String) (keywords : List String) : Nat :=
  (if startsWithStr (toLowerCase filePath) "reference/" then 2 else 0) +
    3 * (keywords.countP fun k => stringIncludes (toLowerCase filePath) (toLowerCase k)) +
    (if ["guides", "getting-started", "architecture"].any
        (fun segment => stringIncludes (toLowerCase filePath) segment) then 1
      else 0)

/-- The number of `"- "`-bulleted lines in a rendered suggestion block: how
many entries the block lists. -/
def countDashLines (s : String) : Nat :=
  ((splitOnChar s '\n').filter (fun line => startsWithStr line "- ")).length

/-! ## Shape predicates on character lists, used to analyse
`normalizeDocPath` -/

/-- No two adjacent forward slashes. -/
def noDoubleSlash : List Char → Bool
  | [] => true
  | [_] => true
  | a :: b :: rest => !(a = '/' && b = '/') && noDoubleSlash (b :: rest)

/-- The list does not start with a forward slash. -/
def HeadNotSlash (l : List Char) : Prop :=
  l.head? ≠ some '/'

/-- The list does not end with a forward slash. -/
def LastNotSlash (l : List Char) : Prop :=
  l.getLast? ≠ some '/'

/-- The list contains no backslash. -/
def NoBackslash (l : List Char) : Prop :=
  ∀ c ∈ l, c ≠ '\\'

/-- The list does not start with the two characters `./`. -/
def NotDotSlashStart (l : List Char) : Prop :=
  ∀ rest : List Char, l ≠ '.' :: '/' :: rest

/-! ## The invariant of the `fileScores` accumulator, used to analyse
`searchDocumentContent` -/

/-- Every entry of the `fileScores` map is keyed by its score's `path`, and
records a file from the walk one of whose lines contains one of the
keywords, case-insensitively. -/
def ScoreEntryFromScan (keywords : List String) (baseDir : String)
    (files : List (String × Except String String)) (pr : String × FileScore) : Prop :=
  pr.1 = pr.2.path ∧
  ∃ fullPath content,
    (fullPath, Except.ok content) ∈ files ∧
    pr.1 = pathRelative baseDir fullPath ∧
    ∃ line ∈ splitOnChar content '\n', ∃ k ∈ keywords,
      stringIncludes (toLowerCase line) (toLowerCase k) = true

/-! ## Concrete fixtures used to evaluate the theorems on closed inputs -/

/-- A document root configured as `docs`, mounted at `/proj/docs`. -/
def demoRoot : DocRoot :=
  { relativePath := "docs", absolutePath := "/proj/docs" }

/-- A filesystem with the single readable file `/proj/docs/index.md`. -/
def demoFs : DocsFs :=
  { stats := fun p => if p = "/proj/docs/index.md" then Except.ok FileKind.file
      else Except.error "ENOENT"
    reads := fun p => if p = "/proj/docs/index.md" then Except.ok "Welcome"
      else Except.error "ENOENT"
    readdirs := fun _ => Except.error "ENOTDIR"
    trees := fun _ => FsForest.nil
    localeLe := stringLeB }

/-- A filesystem where `/proj/docs/a.md` stats as a file but every read
throws a permission error. -/
def permFs : DocsFs :=
  { stats := fun p => if p = "/proj/docs/a.md" then Except.ok FileKind.file
      else Except.error "ENOENT"
    reads := fun _ => Except.error "EACCES: permission denied"
    readdirs := fun _ => Except.error "ENOTDIR"
    trees := fun _ => FsForest.nil
    localeLe := stringLeB }

/-- The directory entries of the listing fixture: a subdirectory, two
markdown files, a text file, and an upper-cased `.MD` file. -/
def demoDirEntries : List Dirent :=
  [⟨"zeta", true, false⟩, ⟨"b.md", false, true⟩, ⟨"a.md", false, true⟩,
    ⟨"c.txt", false, true⟩, ⟨"A.MD", false, true⟩]

/-- A filesystem whose root directory holds `demoDirEntries`. -/
def demoDirFs : DocsFs :=
  { stats := fun p => if p = "/proj/docs" then Except.ok FileKind.directory
      else Except.error "ENOENT"
    reads := fun _ => Except.error "EISDIR"
    readdirs := fun p => if p = "/proj/docs" then Except.ok demoDirEntries
      else Except.error "ENOENT"
    trees := fun _ => FsForest.nil
    localeLe := stringLeB }

/-- A markdown file whose single line is the keyword `kw`. -/
def kwFile (name : String) : FsEntry :=
  FsEntry.file (name ++ ".md") (Except.ok "kw")

/-- Two base directories holding six and five matching markdown files. -/
def elevenTrees : String → FsForest := fun d =>
  if d = "d1" then
    forestOf [kwFile "f1", kwFile "f2", kwFile "f3", kwFile "f4", kwFile "f5", kwFile "f6"]
  else if d = "d2" then
    forestOf [kwFile "g1", kwFile "g2", kwFile "g3", kwFile "g4", kwFile "g5"]
  else FsForest.nil

/-- A tree where `bbb.md` matches the keyword on three lines and `aaa.md` on
one, so `bbb.md` outscores `aaa.md`. -/
def unevenTree : FsForest :=
  forestOf [FsEntry.file "bbb.md" (Except.ok "kw\nkw\nkw"),
    FsEntry.file "aaa.md" (Except.ok "kw")]

/-- A tree with a single matching markdown file. -/
def oneKwTree : FsForest :=
  forestOf [FsEntry.file "aaa.md" (Except.ok "kw")]

/-! ## General lemmas about the stable sort -/

theorem sortInsert_perm (le : α → α → Bool) (a : α) (l : List α) :
    (sortInsert le a l).Perm (a :: l) := by
  induction l with
  | nil => exact List.Perm.refl _
  | cons b l ih =>
    rw [sortInsert]
    split
    · exact List.Perm.refl _
    · exact (ih.cons b).trans (List.Perm.swap a b l)

theorem stableSort_perm (le : α → α → Bool) (l : List α) :
    (stableSort le l).Perm l := by
  induction l with
  | nil => exact List.Perm.refl _
  | cons a l ih => exact (sortInsert_perm le a (stableSort le l)).trans (ih.cons a)

theorem sortInsert_pairwise (le : α → α → Bool)
    (htrans : ∀ a b c, le a b = true → le b c = true → le a c = true)
    (htotal : ∀ a b, le a b = true ∨ le b a = true)
    (a : α) (l : List α) (hl : l.Pairwise (fun x y => le x y = true)) :
    (sortInsert le a l).Pairwise (fun x y => le x y = true) := by
  induction l with
  | nil => simp [sortInsert]
  | cons b l ih =>
    rw [List.pairwise_cons] at hl
    obtain ⟨hb, hl⟩ := hl
    rw [sortInsert]
    split
    next hab =>
      rw [List.pairwise_cons]
      refine ⟨?_, List.pairwise_cons.mpr ⟨hb, hl⟩⟩
      intro y hy
      rcases List.mem_cons.mp hy with rfl | hy
      · exact hab
      · exact htrans a b y hab (hb y hy)
    next hab =>
      rw [List.pairwise_cons]
      refine ⟨?_, ih hl⟩
      intro y hy
      have hy' := (sortInsert_perm le a l).mem_iff.mp hy
      rcases List.mem_cons.mp hy' with rfl | hy'
      · rcases htotal y b with h | h
        · exact absurd h hab
        · exact h
      · exact hb y hy'

theorem stableSort_pairwise (le : α → α → Bool)
    (htrans : ∀ a b c, le a b = true → le b c = true → le a c = true)
    (htotal : ∀ a b, le a b = true ∨ le b a = true)
    (l : List α) :
    (stableSort le l).Pairwise (fun x y => le x y = true) := by
  induction l with
  | nil => simp [stableSort]
  | cons a l ih => exact sortInsert_pairwise le htrans htotal a (stableSort le l) ih

/-! ## The code-point comparator is a total preorder -/

theorem charListLe_trans :
    ∀ a b c : List Char, charListLe a b = true → charListLe b c = true →
      charListLe a c = true := by
  intro a
  induction a with
  | nil => intro b c _ _; rfl
  | cons x xs ih =>
    intro b c h1 h2
    cases b with
    | nil => simp [charListLe] at h1
    | cons y ys =>
      cases c with
      | nil => simp [charListLe] at h2
      | cons z zs =>
        rw [charListLe] at h1 h2 ⊢
        by_cases hxy : x = y
        · subst hxy
          rw [if_pos rfl] at h1
          by_cases hyz : x = z
          · subst hyz
            rw [if_pos rfl] at h2 ⊢
            exact ih ys zs h1 h2
          · rw [if_neg hyz] at h2 ⊢
            exact h2
        · rw [if_neg hxy] at h1
          have hlt1 : x < y := of_decide_eq_true h1
          by_cases hyz : y = z
          · subst hyz
            rw [if_neg hxy]
            exact h1
          · rw [if_neg hyz] at h2
            have hlt2 : y < z := of_decide_eq_true h2
            have hlt : x < z := lt_trans hlt1 hlt2
            rw [if_neg (ne_of_lt hlt)]
            exact decide_eq_true hlt

theorem charListLe_total :
    ∀ a b : List Char, charListLe a b = true ∨ charListLe b a = true := by
  intro a
  induction a with
  | nil => intro b; left; rfl
  | cons x xs ih =>
    intro b
    cases b with
    | nil => right; rfl
    | cons y ys =>
      rw [charListLe, charListLe]
      by_cases hxy : x = y
      · subst hxy
        rw [if_pos rfl, if_pos rfl]
        exact ih ys
      · rw [if_neg hxy, if_neg (Ne.symm hxy)]
        rcases lt_or_gt_of_ne hxy with h | h
        · left; exact decide_eq_true h
        · right; exact decide_eq_true h

theorem stringLeB_trans (a b c : String) (h1 : stringLeB a b = true)
    (h2 : stringLeB b c = true) : stringLeB a c = true :=
  charListLe_trans a.data b.data c.data h1 h2

theorem stringLeB_total (a b : String) : stringLeB a b = true ∨ stringLeB b a = true :=
  charListLe_total a.data b.data

/-! ## Root confinement of the resolver -/

theorem tryCandidates_confined (root : DocRoot) (fs : DocsFs) :
    ∀ (cs : List String) (r : ResolvedDocPath), tryCandidates root fs cs = some r →
      startsWithStr r.absolutePath root.absolutePath = true := by
  intro cs
  induction cs with
  | nil => intro r h; simp [tryCandidates] at h
  | cons c rest ih =>
    intro r h
    rw [tryCandidates] at h
    set relativePath := if c = "." then "." else normalizeDocPath c with hrel
    set target :=
      if relativePath = "." then root.absolutePath
      else pathResolve root.absolutePath relativePath with htarget
    by_cases hguard : startsWithStr target root.absolutePath = true
    · rw [if_pos hguard] at h
      cases hstat : fs.stats target with
      | ok k =>
        rw [hstat] at h
        obtain rfl : ({ absolutePath := target, relativePath := relativePath } :
            ResolvedDocPath) = r := Option.some.inj h
        exact hguard
      | error e =>
        rw [hstat] at h
        exact ih r h
    · rw [if_neg hguard] at h
      exact ih r h

theorem resolved_not_violation (docPath : String) (root : DocRoot) (fs : DocsFs)
    (r : ResolvedDocPath) (h : (resolveDocPath docPath root fs).resolved = some r) :
    (resolveDocPath docPath root fs).isSecurityViolation = false := by
  rw [resolveDocPath] at h ⊢
  split at h
  · simp at h
  next hnt => simp only [if_neg hnt]

/-- C2: whenever `resolveDocPath` returns a resolved location, the resolved
absolute path starts with the configured root's absolute path — resolution
never escapes the document root. -/
theorem resolveDocPath_root_confinement (docPath : String) (root : DocRoot)
    (fs : DocsFs) (r : ResolvedDocPath)
    (h : (resolveDocPath docPath root fs).resolved = some r) :
    startsWithStr r.absolutePath root.absolutePath = true := by
  rw [resolveDocPath] at h
  split at h
  · simp at h
  · exact tryCandidates_confined root fs _ r h

/-- Witness for C2: `index.md` resolves under `/proj/docs`, and the resolved
absolute path indeed starts with `/proj/docs`. -/
theorem resolveDocPath_root_confinement_witness :
    (resolveDocPath "index.md" demoRoot demoFs).resolved =
      some ⟨"/proj/docs/index.md", "index.md"⟩ ∧
    startsWithStr "/proj/docs/index.md" "/proj/docs" = true := by
  have h : (resolveDocPath "index.md" demoRoot demoFs).resolved =
      some ⟨"/proj/docs/index.md", "index.md"⟩ := by decide
  exact ⟨h, resolveDocPath_root_confinement "index.md" demoRoot demoFs _ h⟩

/-! ## Traversal rejection -/

/-- C1: whenever the normalized input contains a `".."` segment, resolution
reports a security violation and the handler's result for that path is the
bare `"Invalid path"` error, with no suggestions; the rendered error body for
that error carries neither the available-paths hint nor suggestions,
whatever the query keywords. -/
theorem docs_tool_rejects_traversal (config : DocsServerConfig) (fs : DocsFs)
    (docPath : String) (queryKeywords : List String) (availablePaths : String)
    (h : hasTraversal (normalizeDocPath docPath) = true) :
    (resolveDocPath docPath config.docRoot fs).isSecurityViolation = true ∧
    handleDocPath config fs queryKeywords docPath =
      DocResult.error docPath "Invalid path" none ∧
    renderErrorBody availablePaths "Invalid path" none = "Invalid path" := by
  refine ⟨?_, ?_, ?_⟩
  · rw [resolveDocPath]
    rw [if_pos h]
  · rw [handleDocPath, readMdContent, resolveDocPath]
    rw [if_pos h]
    rfl
  · rw [renderErrorBody]
    rw [if_neg (by simp)]
    rfl

/-- Witness for C1: `../package.json` is rejected as `"Invalid path"` with
no hints attached. -/
theorem docs_tool_rejects_traversal_witness :
    (resolveDocPath "../package.json" demoRoot demoFs).isSecurityViolation = true ∧
    handleDocPath ⟨demoRoot⟩ demoFs ["config"] "../package.json" =
      DocResult.error "../package.json" "Invalid path" none ∧
    renderErrorBody "Available top-level paths:" "Invalid path" none = "Invalid path" :=
  docs_tool_rejects_traversal ⟨demoRoot⟩ demoFs "../package.json" ["config"]
    "Available top-level paths:" (by decide)

/-! ## The ranking formula matches the specification -/

theorem relevance_foldl (pathLower : String) (l : List String) (init : Nat) :
    l.foldl
      (fun r keyword => if stringIncludes pathLower (toLowerCase keyword) then r + 3 else r)
      init =
    init + 3 * l.countP (fun k => stringIncludes pathLower (toLowerCase k)) := by
  induction l generalizing init with
  | nil => simp
  | cons a l ih =>
    rw [List.foldl_cons, List.countP_cons, ih]
    by_cases ha : stringIncludes pathLower (toLowerCase a) = true
    · rw [if_pos ha, ha]
      simp
      omega
    · rw [if_neg ha]
      rw [Bool.not_eq_true] at ha
      rw [ha]
      simp

/-- Counterexample for C6: the code lowercases the path in the `reference/`
and high-value clauses, the claimed formula does not.  On
`"Reference/a.md"` the code's path relevance is 2 where the formula gives 0
(and on `"Guides/x.md"` 1 versus 0), so with one matching keyword line the
code's final score is 20 where the claimed formula yields 16. -/
theorem ranking_formula_case_sensitivity_cex :
    calculatePathRelevance "Reference/a.md" [] = 2 ∧
    specPathRelevance "Reference/a.md" [] = 0 ∧
    calculatePathRelevance "Guides/x.md" [] = 1 ∧
    specPathRelevance "Guides/x.md" [] = 0 ∧
    calculateFinalScore
      { path := "Reference/a.md"
        keywordMatches := ["kw"]
        totalMatches := 1
        titleMatches := 0
        pathRelevance := calculatePathRelevance "Reference/a.md" ["kw"] } 1 = 20 ∧
    specFinalScore 1 0 (specPathRelevance "Reference/a.md" ["kw"]) 1 1 = 16 := by
  decide

/-- C6 amended: the final ranking score equals the claimed formula, with the
path-relevance bonus computed from the lowercased path in all three clauses
(the code lowercases the path once and uses it throughout): +2 if the
lowercased path starts with `"reference/"`, +3 per keyword that is a
substring of the lowercased path, +1 if the lowercased path contains a
high-value segment. -/
theorem ranking_formula_matches_amended_spec :
    (∀ (score : FileScore) (totalKeywords : Nat),
      calculateFinalScore score totalKeywords =
        specFinalScore score.totalMatches score.titleMatches score.pathRelevance
          score.keywordMatches.length totalKeywords) ∧
    ∀ (filePath : String) (keywords : List String),
      calculatePathRelevance filePath keywords = specPathRelevanceLower filePath keywords := by
  constructor
  · intro score totalKeywords
    rfl
  · intro filePath keywords
    simp only [calculatePathRelevance, specPathRelevanceLower]
    simp only [relevance_foldl]
    rcases Bool.eq_false_or_eq_true
        (startsWithStr (toLowerCase filePath) "reference/") with h1 | h1 <;>
      rcases Bool.eq_false_or_eq_true
        (["guides", "getting-started", "architecture"].any
          fun segment => stringIncludes (toLowerCase filePath) segment) with h2 | h2 <;>
      rw [h1, h2] <;> simp

/-! ## Empty-keyword and no-match suggestions -/

/-- C8: when the union of path-derived and normalized query keywords is
empty, or when no file matches, the suggester returns the empty string (a
value, not an error). -/
theorem getMatchingPaths_empty (pathInput : String) (queryKeywords : List String)
    (baseDirs : List String) (trees : String → FsForest)
    (h : normalizeKeywords (extractKeywordsFromPath pathInput ++ queryKeywords) = [] ∨
      suggestedPathsFor pathInput queryKeywords baseDirs trees = []) :
    getMatchingPaths pathInput queryKeywords baseDirs trees = "" := by
  rw [getMatchingPaths]
  rcases h with h | h
  · rw [h]
    rfl
  · by_cases hk :
      (normalizeKeywords (extractKeywordsFromPath pathInput ++ queryKeywords)).isEmpty = true
    · rw [if_pos hk]
    · rw [if_neg hk, h]
      rfl

/-- Witness for C8: a path with only short segments and no query keywords
yields no keywords, hence the empty suggestion string. -/
theorem getMatchingPaths_empty_witness :
    getMatchingPaths "a/b" [] ["d"] (fun _ => FsForest.nil) = "" :=
  getMatchingPaths_empty "a/b" [] ["d"] (fun _ => FsForest.nil) (Or.inl (by decide))

/-! ## The suggestion bound -/

theorem searchDocumentContent_length_le (keywords : List String) (baseDir : String)
    (tree : FsForest) :
    (searchDocumentContent keywords baseDir tree).length ≤ 10 := by
  rw [searchDocumentContent]
  split
  · simp
  · rw [List.length_map]
    have h := List.length_take 10
      (stableSort
        (fun a b =>
          decide (calculateFinalScore b keywords.length ≤ calculateFinalScore a keywords.length))
        ((fileScoresFor keywords baseDir tree).map Prod.snd))
    omega

theorem addUnique_length (acc : List String) (s : String) :
    (addUnique acc s).length ≤ acc.length + 1 := by
  rw [addUnique]
  split
  · omega
  · simp

theorem foldl_addUnique_length (l : List String) :
    ∀ acc : List String, (l.foldl addUnique acc).length ≤ acc.length + l.length := by
  induction l with
  | nil => intro acc; simp
  | cons a l ih =>
    intro acc
    rw [List.foldl_cons]
    have h1 := ih (addUnique acc a)
    have h2 := addUnique_length acc a
    simp only [List.length_cons]
    omega

/-- C3 amended: the union of suggestions over the supplied base directories
has at most 10 entries per base directory (each `searchDocumentContent` call
is capped at 10, but the union across several base directories is not capped
again). -/
theorem suggestedPathsFor_bound (pathInput : String) (queryKeywords : List String)
    (baseDirs : List String) (trees : String → FsForest) :
    (suggestedPathsFor pathInput queryKeywords baseDirs trees).length ≤
      10 * baseDirs.length := by
  rw [suggestedPathsFor]
  split
  · simp
  · have main :
        ∀ (bds : List String) (acc : List String),
          (bds.foldl
            (fun acc base =>
              (searchDocumentContent
                (normalizeKeywords (extractKeywordsFromPath pathInput ++ queryKeywords))
                base (trees base)).foldl addUnique acc)
            acc).length ≤ acc.length + 10 * bds.length := by
      intro bds
      induction bds with
      | nil => intro acc; simp
      | cons b bds ih =>
        intro acc
        rw [List.foldl_cons]
        have h1 := ih
          ((searchDocumentContent
            (normalizeKeywords (extractKeywordsFromPath pathInput ++ queryKeywords))
            b (trees b)).foldl addUnique acc)
        have h2 := foldl_addUnique_length
          (searchDocumentContent
            (normalizeKeywords (extractKeywordsFromPath pathInput ++ queryKeywords))
            b (trees b)) acc
        have h3 := searchDocumentContent_length_le
          (normalizeKeywords (extractKeywordsFromPath pathInput ++ queryKeywords))
          b (trees b)
        simp only [List.length_cons]
        omega
    have h := main baseDirs []
    simpa using h

/-- Counterexample for C3: scanning two base directories in one call returns
eleven suggestions — the 10-entry bound only holds per base directory. -/
theorem suggestions_exceed_ten_on_two_roots :
    (suggestedPathsFor "topic" ["kw"] ["d1", "d2"] elevenTrees).length = 11 ∧
    10 < countDashLines (getMatchingPaths "topic" ["kw"] ["d1", "d2"] elevenTrees) := by
  decide

/-! ## Order of the suggestion block -/

/-- Counterexample for C5: with one keyword and two matching files, the block
lists `aaa.md` (final score 16) before `bbb.md` (final score 18): the listed
order is lexicographic, not descending by final ranking score. -/
theorem suggestion_block_not_score_ordered :
    getMatchingPaths "x" ["kw"] ["d"] (fun _ => unevenTree) =
      "Here are some paths that might be relevant based on your query:\n\n- aaa.md\n- bbb.md" ∧
    ((fileScoresFor ["kw"] "d" unevenTree).lookup "bbb.md").map
      (fun s => calculateFinalScore s 1) = some 18 ∧
    ((fileScoresFor ["kw"] "d" unevenTree).lookup "aaa.md").map
      (fun s => calculateFinalScore s 1) = some 16 := by
  decide

/-- C5 amended: for every input with a non-empty block, the block is the
fixed header followed by the selected candidates (the per-directory
top-10-by-score lists, unioned and deduplicated) sorted in ascending
code-point order — not in descending score order — each on its own line
prefixed `"- "`. -/
theorem suggestion_block_sorted_lexicographically (pathInput : String)
    (queryKeywords : List String) (baseDirs : List String) (trees : String → FsForest)
    (h : getMatchingPaths pathInput queryKeywords baseDirs trees ≠ "") :
    ∃ l : List String,
      l.Perm (suggestedPathsFor pathInput queryKeywords baseDirs trees) ∧
      l.Pairwise (fun a b => stringLeB a b = true) ∧
      getMatchingPaths pathInput queryKeywords baseDirs trees =
        "Here are some paths that might be relevant based on your query:\n\n" ++
          joinSep "\n" (l.map (fun value => "- " ++ value)) := by
  refine ⟨stableSort stringLeB (suggestedPathsFor pathInput queryKeywords baseDirs trees),
    stableSort_perm _ _, stableSort_pairwise _ stringLeB_trans stringLeB_total _, ?_⟩
  rw [getMatchingPaths] at h ⊢
  by_cases hk :
    (normalizeKeywords (extractKeywordsFromPath pathInput ++ queryKeywords)).isEmpty = true
  · rw [if_pos hk] at h
    exact absurd rfl h
  · rw [if_neg hk] at h ⊢
    by_cases hs : (suggestedPathsFor pathInput queryKeywords baseDirs trees).isEmpty = true
    · rw [if_pos hs] at h
      exact absurd rfl h
    · rw [if_neg hs]

/-- Witness for C5 amended: a one-file tree produces a non-empty block of the
stated shape. -/
theorem suggestion_block_sorted_lexicographically_witness :
    ∃ l : List String,
      l.Perm (suggestedPathsFor "x" ["kw"] ["d"] (fun _ => oneKwTree)) ∧
      l.Pairwise (fun a b => stringLeB a b = true) ∧
      getMatchingPaths "x" ["kw"] ["d"] (fun _ => oneKwTree) =
        "Here are some paths that might be relevant based on your query:\n\n" ++
          joinSep "\n" (l.map (fun value => "- " ++ value)) :=
  suggestion_block_sorted_lexicographically "x" ["kw"] ["d"] (fun _ => oneKwTree) (by decide)

/-! ## Per-path isolation of the batch handler -/

theorem readMdContent_path (docPath : String) (queryKeywords : List String)
    (config : DocsServerConfig) (fs : DocsFs) (result : DocResult)
    (h : readMdContent docPath queryKeywords config fs = Except.ok (ReadMdResult.found result)) :
    result.path = docPath := by
  rw [readMdContent] at h
  split at h
  · simp at h
  · split at h
    · simp at h
    · split at h
      · simp at h
      · split at h
        · simp at h
        · simp only [Except.ok.injEq, ReadMdResult.found.injEq] at h
          subst h
          rfl
      · split at h
        · simp at h
        · simp only [Except.ok.injEq, ReadMdResult.found.injEq] at h
          subst h
          rfl

/-- C7: the batch produces exactly one result per requested path, in request
order; each result is a function of its own path alone; every result carries
its own path; and a read failure after a successful stat is caught and
becomes that path's own error entry carrying the thrown message. -/
theorem batch_per_path_isolation (config : DocsServerConfig) (fs : DocsFs)
    (paths queryKeywords : List String) (p : String) (r : ResolvedDocPath) (e : String)
    (h1 : (resolveDocPath p config.docRoot fs).resolved = some r)
    (h2 : fs.stats r.absolutePath = Except.ok FileKind.file)
    (h3 : fs.reads r.absolutePath = Except.error e) :
    (handleDocsRequest config fs paths queryKeywords).length = paths.length ∧
    (∀ i : Nat, (handleDocsRequest config fs paths queryKeywords).get? i =
      (paths.get? i).map (handleDocPath config fs queryKeywords)) ∧
    (∀ q : String, (handleDocPath config fs queryKeywords q).path = q) ∧
    handleDocPath config fs queryKeywords p = DocResult.error p e none := by
  refine ⟨?_, ?_, ?_, ?_⟩
  · rw [handleDocsRequest, List.length_map]
  · intro i
    rw [handleDocsRequest, List.get?_map]
  · intro q
    rw [handleDocPath]
    split
    next result hres => exact readMdContent_path q queryKeywords config fs result hres
    next => rfl
    next => rfl
    next => rfl
  · have hv := resolved_not_violation p config.docRoot fs r h1
    have hmd : readMdContent p queryKeywords config fs = Except.error e := by
      simp only [readMdContent, hv, Bool.false_eq_true, if_false, h1, h2, h3]
    rw [handleDocPath, hmd]

/-- Witness for C7: with a file that stats but cannot be read, the batch has
one entry per path and the failing path's entry carries the thrown
message. -/
theorem batch_per_path_isolation_witness :
    (handleDocsRequest ⟨demoRoot⟩ permFs ["a.md", "missing.md"] []).length = 2 ∧
    handleDocPath ⟨demoRoot⟩ permFs [] "a.md" =
      DocResult.error "a.md" "EACCES: permission denied" none := by
  have h := batch_per_path_isolation ⟨demoRoot⟩ permFs ["a.md", "missing.md"] []
    "a.md" ⟨"/proj/docs/a.md", "a.md"⟩ "EACCES: permission denied"
    (by decide) (by rfl) (by rfl)
  exact ⟨h.1, h.2.2.2⟩

/-! ## The directory listing -/

set_option maxHeartbeats 1000000 in
/-- C9: the listing of a resolved directory keeps exactly the subdirectories
(suffixed `"/"`, via the display-path builder) and the files whose name ends
in `.md` (case-sensitively), and returns both lists sorted ascending by the
locale comparator (assumed transitive and total). -/
theorem listDirContents_spec (rootPfx : String) (resolved : ResolvedDocPath)
    (fs : DocsFs) (entries : List Dirent)
    (hrd : fs.readdirs resolved.absolutePath = Except.ok entries)
    (htrans : ∀ a b c, fs.localeLe a b = true → fs.localeLe b c = true →
      fs.localeLe a c = true)
    (htotal : ∀ a b, fs.localeLe a b = true ∨ fs.localeLe b a = true) :
    ∃ dirs files,
      listDirContents rootPfx resolved fs = Except.ok (dirs, files) ∧
      dirs.Perm ((entries.filter (fun entry => entry.isDir)).map
        (fun entry => buildDisplayPath resolved.relativePath entry.name rootPfx true)) ∧
      files.Perm ((entries.filter
          (fun entry => !entry.isDir && entry.isFile && endsWithStr entry.name ".md")).map
        (fun entry => buildDisplayPath resolved.relativePath entry.name rootPfx false)) ∧
      (∀ d ∈ dirs, ∃ s, d = s ++ "/") ∧
      dirs.Pairwise (fun a b => fs.localeLe a b = true) ∧
      files.Pairwise (fun a b => fs.localeLe a b = true) := by
  refine ⟨stableSort fs.localeLe ((entries.filter (fun entry => entry.isDir)).map
      (fun entry => buildDisplayPath resolved.relativePath entry.name rootPfx true)),
    stableSort fs.localeLe ((entries.filter
        (fun entry => !entry.isDir && entry.isFile && endsWithStr entry.name ".md")).map
      (fun entry => buildDisplayPath resolved.relativePath entry.name rootPfx false)),
    ?_, stableSort_perm _ _, stableSort_perm _ _, ?_,
    stableSort_pairwise _ htrans htotal _, stableSort_pairwise _ htrans htotal _⟩
  · rw [listDirContents, hrd]
  · intro d hd
    have hd' := (stableSort_perm fs.localeLe _).mem_iff.mp hd
    obtain ⟨entry, _, rfl⟩ := List.mem_map.mp hd'
    exact ⟨_, rfl⟩

/-- Witness for C9: listing the fixture directory (with the code-point
comparator as locale order). -/
theorem listDirContents_spec_witness :
    ∃ dirs files,
      listDirContents "docs" ⟨"/proj/docs", "."⟩ demoDirFs = Except.ok (dirs, files) ∧
      dirs.Perm ((demoDirEntries.filter (fun entry => entry.isDir)).map
        (fun entry => buildDisplayPath "." entry.name "docs" true)) ∧
      files.Perm ((demoDirEntries.filter
          (fun entry => !entry.isDir && entry.isFile && endsWithStr entry.name ".md")).map
        (fun entry => buildDisplayPath "." entry.name "docs" false)) ∧
      (∀ d ∈ dirs, ∃ s, d = s ++ "/") ∧
      dirs.Pairwise (fun a b => demoDirFs.localeLe a b = true) ∧
      files.Pairwise (fun a b => demoDirFs.localeLe a b = true) :=
  listDirContents_spec "docs" ⟨"/proj/docs", "."⟩ demoDirFs demoDirEntries (by rfl)
    (fun a b c hab hbc => stringLeB_trans a b c hab hbc)
    (fun a b => stringLeB_total a b)

/-! ## Suggested files really match the keywords -/

theorem scoreStep_inv (keywords : List String) (baseDir filePath content lineText : String)
    (files : List (String × Except String String))
    (hfile : (filePath, Except.ok content) ∈ files)
    (hline : lineText ∈ splitOnChar content '\n')
    (keyword : String) (hkw : keyword ∈ keywords)
    (m : List (String × FileScore))
    (hm : ∀ pr ∈ m, ScoreEntryFromScan keywords baseDir files pr) :
    ∀ pr ∈ scoreStep keywords baseDir filePath (toLowerCase lineText) m keyword,
      ScoreEntryFromScan keywords baseDir files pr := by
  intro pr hpr
  simp only [scoreStep] at hpr
  split at hpr
  · exact hm pr hpr
  next hguard =>
    have hinc : stringIncludes (toLowerCase lineText) (toLowerCase keyword) = true := by
      simpa using hguard
    rw [List.mem_map] at hpr
    obtain ⟨entry, hentry, hpr⟩ := hpr
    have hbase : ScoreEntryFromScan keywords baseDir files entry ∨
        (entry.1 = pathRelative baseDir filePath ∧
          entry.2.path = pathRelative baseDir filePath) := by
      split at hentry
      · rcases List.mem_append.mp hentry with hin | hnew
        · exact Or.inl (hm entry hin)
        · have heq := List.mem_singleton.mp hnew
          subst heq
          exact Or.inr ⟨rfl, rfl⟩
      · exact Or.inl (hm entry hentry)
    by_cases hk2 : entry.1 = pathRelative baseDir filePath
    · rw [if_pos hk2] at hpr
      subst hpr
      have hblpath :
          (let score := entry.2
            let score :=
              { score with
                keywordMatches := addUnique score.keywordMatches keyword
                totalMatches := score.totalMatches + 1 }
            if stringIncludes (toLowerCase lineText) "#" ||
                stringIncludes (toLowerCase lineText) "title" then
              { score with titleMatches := score.titleMatches + 1 }
            else score).path = entry.2.path := by
        dsimp only
        split
        · rfl
        · rfl
      rcases hbase with hsc | ⟨h1, h2⟩
      · obtain ⟨hkey, fp, c, hmem, hrel, hrest⟩ := hsc
        refine ⟨?_, fp, c, hmem, hrel, hrest⟩
        show entry.1 = _
        rw [hblpath]
        exact hkey
      · refine ⟨?_, filePath, content, hfile, h1, lineText, hline, keyword, hkw, hinc⟩
        show entry.1 = _
        rw [hblpath, h1]
        exact h2.symm
    · rw [if_neg hk2] at hpr
      subst hpr
      rcases hbase with hsc | ⟨h1, _⟩
      · exact hsc
      · exact absurd h1 hk2

theorem keywords_fold_inv (keywords : List String) (baseDir filePath content lineText : String)
    (files : List (String × Except String String))
    (hfile : (filePath, Except.ok content) ∈ files)
    (hline : lineText ∈ splitOnChar content '\n') :
    ∀ kws : List String, (∀ k ∈ kws, k ∈ keywords) →
      ∀ m : List (String × FileScore),
        (∀ pr ∈ m, ScoreEntryFromScan keywords baseDir files pr) →
        ∀ pr ∈ kws.foldl (scoreStep keywords baseDir filePath (toLowerCase lineText)) m,
          ScoreEntryFromScan keywords baseDir files pr := by
  intro kws
  induction kws with
  | nil =>
    intro _ m hm
    simpa using hm
  | cons k kws ih =>
    intro hsub m hm
    rw [List.foldl_cons]
    exact ih (fun x hx => hsub x (List.mem_cons_of_mem k hx))
      (scoreStep keywords baseDir filePath (toLowerCase lineText) m k)
      (scoreStep_inv keywords baseDir filePath content lineText files hfile hline k
        (hsub k (List.mem_cons_self k kws)) m hm)

theorem lines_fold_inv (keywords : List String) (baseDir filePath content : String)
    (files : List (String × Except String String))
    (hfile : (filePath, Except.ok content) ∈ files) :
    ∀ lns : List String, (∀ t ∈ lns, t ∈ splitOnChar content '\n') →
      ∀ m : List (String × FileScore),
        (∀ pr ∈ m, ScoreEntryFromScan keywords baseDir files pr) →
        ∀ pr ∈ lns.foldl
          (fun m lineText =>
            keywords.foldl (scoreStep keywords baseDir filePath (toLowerCase lineText)) m) m,
          ScoreEntryFromScan keywords baseDir files pr := by
  intro lns
  induction lns with
  | nil =>
    intro _ m hm
    simpa using hm
  | cons t lns ih =>
    intro hsub m hm
    rw [List.foldl_cons]
    exact ih (fun x hx => hsub x (List.mem_cons_of_mem t hx))
      (keywords.foldl (scoreStep keywords baseDir filePath (toLowerCase t)) m)
      (keywords_fold_inv keywords baseDir filePath content t files hfile
        (hsub t (List.mem_cons_self t lns)) keywords (fun _ hk => hk) m hm)

theorem files_fold_inv (keywords : List String) (baseDir : String)
    (files : List (String × Except String String)) :
    ∀ fls : List (String × Except String String), (∀ x ∈ fls, x ∈ files) →
      ∀ m : List (String × FileScore),
        (∀ pr ∈ m, ScoreEntryFromScan keywords baseDir files pr) →
        ∀ pr ∈ fls.foldl
          (fun m pc =>
            match pc.2 with
            | Except.error _ => m
            | Except.ok content =>
              (splitOnChar content '\n').foldl
                (fun m lineText =>
                  keywords.foldl (scoreStep keywords baseDir pc.1 (toLowerCase lineText)) m) m) m,
          ScoreEntryFromScan keywords baseDir files pr := by
  intro fls
  induction fls with
  | nil =>
    intro _ m hm
    simpa using hm
  | cons x fls ih =>
    intro hsub m hm
    rw [List.foldl_cons]
    refine ih (fun y hy => hsub y (List.mem_cons_of_mem x hy)) _ ?_
    obtain ⟨xp, xc⟩ := x
    cases xc with
    | error e =>
      exact hm
    | ok content =>
      exact lines_fold_inv keywords baseDir xp content files
        (hsub (xp, Except.ok content) (List.mem_cons_self _ fls))
        (splitOnChar content '\n') (fun _ ht => ht) m hm

theorem fileScoresFor_inv (keywords : List String) (baseDir : String) (tree : FsForest) :
    ∀ pr ∈ fileScoresFor keywords baseDir tree,
      ScoreEntryFromScan keywords baseDir (walkMdFiles baseDir tree) pr := by
  intro pr hpr
  rw [fileScoresFor] at hpr
  exact files_fold_inv keywords baseDir (walkMdFiles baseDir tree)
    (walkMdFiles baseDir tree) (fun _ hx => hx) [] (by simp) pr hpr

/-- C10: every path returned by `searchDocumentContent` names a walked file
one of whose lines contains at least one keyword case-insensitively — path
relevance alone never makes a file appear among the suggestions. -/
theorem searchDocumentContent_only_content_matches (keywords : List String)
    (baseDir : String) (tree : FsForest) (p : String)
    (hp : p ∈ searchDocumentContent keywords baseDir tree) :
    ∃ fullPath content,
      (fullPath, Except.ok content) ∈ walkMdFiles baseDir tree ∧
      p = pathRelative baseDir fullPath ∧
      ∃ line ∈ splitOnChar content '\n', ∃ k ∈ keywords,
        stringIncludes (toLowerCase line) (toLowerCase k) = true := by
  rw [searchDocumentContent] at hp
  split at hp
  · simp at hp
  · rw [List.mem_map] at hp
    obtain ⟨score, hsc, rfl⟩ := hp
    have h2 : score ∈ (fileScoresFor keywords baseDir tree).map Prod.snd :=
      (stableSort_perm _ _).mem_iff.mp (List.take_subset 10 _ hsc)
    obtain ⟨pr, hpr, rfl⟩ := List.mem_map.mp h2
    obtain ⟨hkey, fp, c, hmem, hrel, hrest⟩ := fileScoresFor_inv keywords baseDir tree pr hpr
    exact ⟨fp, c, hmem, hkey ▸ hrel, hrest⟩

/-- Witness for C10: the single suggested path `aaa.md` comes from a walked
file containing the keyword. -/
theorem searchDocumentContent_only_content_matches_witness :
    ∃ fullPath content,
      (fullPath, Except.ok content) ∈ walkMdFiles "d" oneKwTree ∧
      "aaa.md" = pathRelative "d" fullPath ∧
      ∃ line ∈ splitOnChar content '\n', ∃ k ∈ ["kw"],
        stringIncludes (toLowerCase line) (toLowerCase k) = true :=
  searchDocumentContent_only_content_matches ["kw"] "d" oneKwTree "aaa.md" (by decide)

/-! ## Shape analysis of `normalizeDocPath` -/

theorem nd_tail (a : Char) (l : List Char) (h : noDoubleSlash (a :: l) = true) :
    noDoubleSlash l = true := by
  cases l with
  | nil => rfl
  | cons b rest =>
    rw [noDoubleSlash] at h
    rw [Bool.and_eq_true] at h
    exact h.2

theorem nd_pair (a b : Char) (l : List Char) (h : noDoubleSlash (a :: b :: l) = true) :
    ¬(a = '/' ∧ b = '/') := by
  rintro ⟨rfl, rfl⟩
  simp [noDoubleSlash] at h

theorem nd_cons (a : Char) (l : List Char)
    (hpair : ∀ b, l.head? = some b → ¬(a = '/' ∧ b = '/'))
    (hl : noDoubleSlash l = true) : noDoubleSlash (a :: l) = true := by
  cases l with
  | nil => rfl
  | cons b rest =>
    have hp := hpair b rfl
    rw [noDoubleSlash, hl, Bool.and_true]
    by_cases ha : a = '/'
    · have hb : ¬b = '/' := fun hb => hp ⟨ha, hb⟩
      simp [ha, hb]
    · simp [ha]

theorem noBS_map (l : List Char) : NoBackslash (l.map slashifyChar) := by
  intro c hc
  obtain ⟨x, _, rfl⟩ := List.mem_map.mp hc
  rw [slashifyChar]
  split
  · decide
  next hx => exact hx

theorem map_slashify_id (l : List Char) (h : NoBackslash l) : l.map slashifyChar = l := by
  induction l with
  | nil => rfl
  | cons a t ih =>
    rw [List.map_cons]
    rw [ih (fun c hc => h c (List.mem_cons_of_mem a hc))]
    rw [slashifyChar, if_neg (h a (List.mem_cons_self a t))]

theorem strip_sublist : ∀ l : List Char, (stripLeadingDotSlash l).Sublist l := by
  intro l
  induction l using stripLeadingDotSlash.induct with
  | case1 => simp [stripLeadingDotSlash]
  | case2 c => simp [stripLeadingDotSlash]
  | case3 a b rest h ih =>
    rw [stripLeadingDotSlash, if_pos h]
    exact ih.trans ((List.sublist_cons_self b rest).trans
      (List.sublist_cons_self a (b :: rest)))
  | case4 a b rest h =>
    rw [stripLeadingDotSlash, if_neg h]

theorem strip_noBS (l : List Char) (h : NoBackslash l) :
    NoBackslash (stripLeadingDotSlash l) :=
  fun c hc => h c ((strip_sublist l).mem hc)

theorem strip_head (l : List Char) (hnd : noDoubleSlash l = true) (hh : HeadNotSlash l) :
    HeadNotSlash (stripLeadingDotSlash l) := by
  induction l using stripLeadingDotSlash.induct with
  | case1 => exact hh
  | case2 c => exact hh
  | case3 a b rest h ih =>
    rw [stripLeadingDotSlash, if_pos h]
    have hab : a = '.' ∧ b = '/' := by simpa using h
    have hnd2 : noDoubleSlash (b :: rest) = true := nd_tail a _ hnd
    cases rest with
    | nil =>
      intro hcontra
      simp [stripLeadingDotSlash] at hcontra
    | cons r rs =>
      have hpr := nd_pair b r rs hnd2
      have hr : ¬r = '/' := fun hr => hpr ⟨hab.2, hr⟩
      have hnd3 : noDoubleSlash (r :: rs) = true := nd_tail b _ hnd2
      exact ih hnd3 (by simpa [HeadNotSlash] using hr)
  | case4 a b rest h =>
    rw [stripLeadingDotSlash, if_neg h]
    exact hh

theorem strip_noDouble (l : List Char) (hnd : noDoubleSlash l = true) :
    noDoubleSlash (stripLeadingDotSlash l) = true := by
  induction l using stripLeadingDotSlash.induct with
  | case1 => exact hnd
  | case2 c => exact hnd
  | case3 a b rest h ih =>
    rw [stripLeadingDotSlash, if_pos h]
    exact ih (nd_tail b _ (nd_tail a _ hnd))
  | case4 a b rest h =>
    rw [stripLeadingDotSlash, if_neg h]
    exact hnd

theorem strip_last (l : List Char) (hl : LastNotSlash l) :
    LastNotSlash (stripLeadingDotSlash l) := by
  induction l using stripLeadingDotSlash.induct with
  | case1 => exact hl
  | case2 c => exact hl
  | case3 a b rest h ih =>
    rw [stripLeadingDotSlash, if_pos h]
    have hab : a = '.' ∧ b = '/' := by simpa using h
    cases rest with
    | nil =>
      exfalso
      apply hl
      rw [List.getLast?_cons_cons]
      simp [hab.2]
    | cons r rs =>
      refine ih ?_
      intro hcontra
      apply hl
      rw [List.getLast?_cons_cons, List.getLast?_cons_cons]
      exact hcontra
  | case4 a b rest h =>
    rw [stripLeadingDotSlash, if_neg h]
    exact hl

theorem strip_notDotSlash (l : List Char) :
    NotDotSlashStart (stripLeadingDotSlash l) := by
  induction l using stripLeadingDotSlash.induct with
  | case1 =>
    intro rest hcontra
    simp [stripLeadingDotSlash] at hcontra
  | case2 c =>
    intro rest hcontra
    simp [stripLeadingDotSlash] at hcontra
  | case3 a b rest h ih =>
    rw [stripLeadingDotSlash, if_pos h]
    exact ih
  | case4 a b rest h =>
    rw [stripLeadingDotSlash, if_neg h]
    intro rest' hcontra
    obtain ⟨ha, htail⟩ := List.cons_eq_cons.mp hcontra
    obtain ⟨hb, -⟩ := List.cons_eq_cons.mp htail
    exact h (by simp [ha, hb])

theorem strip_eq_self (l : List Char) (h : NotDotSlashStart l) :
    stripLeadingDotSlash l = l := by
  cases l with
  | nil => rfl
  | cons a t =>
    cases t with
    | nil => rfl
    | cons b rest =>
      rw [stripLeadingDotSlash]
      rw [if_neg]
      intro hcontra
      have hab : a = '.' ∧ b = '/' := by simpa using hcontra
      exact h rest (by rw [hab.1, hab.2])

theorem dropWhileSlash_head (l : List Char) :
    HeadNotSlash (l.dropWhile (fun c => c = '/')) := by
  induction l with
  | nil =>
    intro hcontra
    simp at hcontra
  | cons a t ih =>
    rw [List.dropWhile_cons]
    split
    · exact ih
    next ha =>
      intro hcontra
      simp at hcontra
      exact ha (by simp [hcontra])

theorem dropWhileSlash_eq_self (l : List Char) (hh : HeadNotSlash l) :
    l.dropWhile (fun c => c = '/') = l := by
  cases l with
  | nil => rfl
  | cons a t =>
    rw [List.dropWhile_cons]
    rw [if_neg]
    intro ha
    exact hh (by simpa using ha)

theorem dropWhileSlash_noDouble (l : List Char) (hnd : noDoubleSlash l = true) :
    noDoubleSlash (l.dropWhile (fun c => c = '/')) = true := by
  induction l with
  | nil => exact hnd
  | cons a t ih =>
    rw [List.dropWhile_cons]
    split
    · exact ih (nd_tail a t hnd)
    · exact hnd

theorem dropWhileSlash_last (l : List Char) (hl : LastNotSlash l) :
    LastNotSlash (l.dropWhile (fun c => c = '/')) := by
  induction l with
  | nil => exact hl
  | cons a t ih =>
    rw [List.dropWhile_cons]
    split
    · refine ih ?_
      cases t with
      | nil =>
        intro hcontra
        simp at hcontra
      | cons b rest =>
        intro hcontra
        apply hl
        rw [List.getLast?_cons_cons]
        exact hcontra
    · exact hl

theorem collapse_head (l : List Char) : (collapseSlashes l).head? = l.head? := by
  induction l using collapseSlashes.induct with
  | case1 => rfl
  | case2 c => rfl
  | case3 a b rest h ih =>
    rw [collapseSlashes, if_pos h]
    rw [ih]
    have hab : a = '/' ∧ b = '/' := by simpa using h
    simp [hab.1, hab.2]
  | case4 a b rest h =>
    rw [collapseSlashes, if_neg h]
    rfl

theorem collapse_noDouble (l : List Char) : noDoubleSlash (collapseSlashes l) = true := by
  induction l using collapseSlashes.induct with
  | case1 => rfl
  | case2 c => rfl
  | case3 a b rest h ih =>
    rw [collapseSlashes, if_pos h]
    exact ih
  | case4 a b rest h ih =>
    rw [collapseSlashes, if_neg h]
    refine nd_cons a _ ?_ ih
    intro x hx
    rw [collapse_head (b :: rest)] at hx
    simp only [List.head?] at hx
    cases hx
    intro hcontra
    exact h (by simp [hcontra.1, hcontra.2])

theorem collapse_eq_self (l : List Char) (hnd : noDoubleSlash l = true) :
    collapseSlashes l = l := by
  induction l using collapseSlashes.induct with
  | case1 => rfl
  | case2 c => rfl
  | case3 a b rest h ih =>
    exfalso
    have hab : a = '/' ∧ b = '/' := by simpa using h
    exact nd_pair a b rest hnd hab
  | case4 a b rest h ih =>
    rw [collapseSlashes, if_neg h]
    rw [ih (nd_tail a _ hnd)]

theorem collapse_mem (l : List Char) (c : Char) (hc : c ∈ collapseSlashes l) : c ∈ l := by
  induction l using collapseSlashes.induct with
  | case1 => simp [collapseSlashes] at hc
  | case2 d =>
    simp [collapseSlashes] at hc
    simp [hc]
  | case3 a b rest h ih =>
    rw [collapseSlashes, if_pos h] at hc
    exact List.mem_cons_of_mem a (ih hc)
  | case4 a b rest h ih =>
    rw [collapseSlashes, if_neg h] at hc
    rcases List.mem_cons.mp hc with rfl | hc
    · exact List.mem_cons_self c _
    · exact List.mem_cons_of_mem a (ih hc)

theorem dropLast_head (l : List Char) (hh : HeadNotSlash l) : HeadNotSlash l.dropLast := by
  cases l with
  | nil => exact hh
  | cons a t =>
    cases t with
    | nil =>
      intro hcontra
      simp at hcontra
    | cons b rest =>
      intro hcontra
      rw [List.dropLast_cons₂] at hcontra
      exact hh (by simpa using hcontra)

theorem dropLast_noDouble (l : List Char) (hnd : noDoubleSlash l = true) :
    noDoubleSlash l.dropLast = true := by
  induction l with
  | nil => rfl
  | cons a t ih =>
    cases t with
    | nil => rfl
    | cons b rest =>
      rw [List.dropLast_cons₂]
      refine nd_cons a _ ?_ (ih (nd_tail a _ hnd))
      intro x hx
      cases rest with
      | nil => simp at hx
      | cons r rs =>
        rw [List.dropLast_cons₂] at hx
        simp only [List.head?] at hx
        cases hx
        exact nd_pair a b (r :: rs) hnd

theorem dropLast_last (l : List Char) (hnd : noDoubleSlash l = true)
    (hl : l.getLast? = some '/') : LastNotSlash l.dropLast := by
  induction l with
  | nil =>
    intro hcontra
    simp at hcontra
  | cons a t ih =>
    cases t with
    | nil =>
      intro hcontra
      simp at hcontra
    | cons b rest =>
      rw [List.dropLast_cons₂]
      rw [List.getLast?_cons_cons] at hl
      have ih2 := ih (nd_tail a _ hnd) hl
      cases hdrop : (b :: rest).dropLast with
      | nil =>
        have hrest : rest = [] := by
          cases rest with
          | nil => rfl
          | cons r rs =>
            rw [List.dropLast_cons₂] at hdrop
            simp at hdrop
        subst hrest
        have hb : b = '/' := by simpa using hl
        intro hcontra
        have ha : a = '/' := by simpa using hcontra
        exact nd_pair a b [] hnd ⟨ha, hb⟩
      | cons d ds =>
        intro hcontra
        rw [List.getLast?_cons_cons] at hcontra
        apply ih2
        rw [hdrop]
        exact hcontra

theorem normL_props (l : List Char) :
    NoBackslash (normalizeDocPathL l) ∧ HeadNotSlash (normalizeDocPathL l) ∧
      noDoubleSlash (normalizeDocPathL l) = true ∧ LastNotSlash (normalizeDocPathL l) := by
  simp only [normalizeDocPathL]
  set l1 := l.map slashifyChar with h1
  set l2 := stripLeadingDotSlash l1 with h2
  set l3 := l2.dropWhile (fun c => c = '/') with h3
  set l4 := collapseSlashes l3 with h4
  have hbs4 : NoBackslash l4 := by
    intro c hc
    have hc3 : c ∈ l3 := collapse_mem l3 c hc
    have hc2 : c ∈ l2 := (List.dropWhile_sublist _).mem hc3
    exact strip_noBS l1 (noBS_map l) c hc2
  have hh4 : HeadNotSlash l4 := by
    intro hc
    rw [h4, collapse_head l3] at hc
    exact dropWhileSlash_head l2 hc
  have hnd4 : noDoubleSlash l4 = true := collapse_noDouble l3
  split
  next hcond =>
    refine ⟨?_, dropLast_head l4 hh4, dropLast_noDouble l4 hnd4, dropLast_last l4 hnd4 hcond⟩
    intro c hc
    exact hbs4 c ((List.dropLast_sublist l4).mem hc)
  next hcond =>
    exact ⟨hbs4, hh4, hnd4, hcond⟩

theorem normL_eq_strip (y : List Char) (hbs : NoBackslash y) (hh : HeadNotSlash y)
    (hnd : noDoubleSlash y = true) (hl : LastNotSlash y) :
    normalizeDocPathL y = stripLeadingDotSlash y := by
  simp only [normalizeDocPathL]
  rw [map_slashify_id y hbs]
  rw [dropWhileSlash_eq_self _ (strip_head y hnd hh)]
  rw [collapse_eq_self _ (strip_noDouble y hnd)]
  rw [if_neg (strip_last y hl)]

theorem normL_fixed (z : List Char) (hbs : NoBackslash z) (hh : HeadNotSlash z)
    (hnd : noDoubleSlash z = true) (hl : LastNotSlash z) (hds : NotDotSlashStart z) :
    normalizeDocPathL z = z := by
  rw [normL_eq_strip z hbs hh hnd hl]
  exact strip_eq_self z hds

theorem normL_twice (l : List Char) :
    normalizeDocPathL (normalizeDocPathL (normalizeDocPathL l)) =
      normalizeDocPathL (normalizeDocPathL l) := by
  obtain ⟨hbs, hh, hnd, hl⟩ := normL_props l
  have h2 : normalizeDocPathL (normalizeDocPathL l) =
      stripLeadingDotSlash (normalizeDocPathL l) :=
    normL_eq_strip _ hbs hh hnd hl
  rw [h2]
  exact normL_fixed _ (strip_noBS _ hbs) (strip_head _ hnd hh) (strip_noDouble _ hnd)
    (strip_last _ hl) (strip_notDotSlash _)

/-- Counterexample for C4: a single application of `normalizeDocPath` is not
idempotent — stripping the leading slash of `"/./a"` exposes a `./` that the
earlier strip-`./` loop no longer removes, so a second application changes
the result again. -/
theorem normalizeDocPath_not_idempotent :
    normalizeDocPath (normalizeDocPath "/./a") ≠ normalizeDocPath "/./a" := by
  decide

/-- C4 amended: applying `normalizeDocPath` twice reaches a fixed point
(`normalizeDocPath` is idempotent on its image after one further
application), and normalizing `"./a//b/"` yields `"a/b"`; one application
alone is not idempotent. -/
theorem normalizeDocPath_twice_idempotent :
    (∀ s : String, normalizeDocPath (normalizeDocPath (normalizeDocPath s)) =
      normalizeDocPath (normalizeDocPath s)) ∧
    normalizeDocPath "./a//b/" = "a/b" := by
  constructor
  · intro s
    exact congrArg String.mk (normL_twice s.data)
  · decide
